import Mathlib

/-!
Verification development for CodeTextify.py (file-collection and merge tool).

Strings are modelled as List Char, file bytes as List (Fin 256).
Each definition mirrors a specific piece of src/CodeTextify.py; line numbers
in the doc comments refer to that file. I/O (printing, copying, actual file
writes) is dropped; the data produced by each step is modelled explicitly.
-/

set_option maxRecDepth 20000

/-- Abbreviation turning a string literal into the List Char representation. -/
def chars (s : String) : List Char := s.toList

/-- Python str.lower restricted to the characters that occur here (ASCII). -/
def lowerStr (s : List Char) : List Char := s.map Char.toLower

/-- IGNORED_FOLDERS_LIST (lines 31-35). -/
def IGNORED_FOLDERS_LIST : List (List Char) :=
  [chars ".git", chars "node_modules", chars ".godot", chars "__pycache__", chars "build",
   chars "dist", chars "out", chars "bin", chars "target", chars ".gradle", chars ".idea",
   chars ".vscode", chars "venv", chars "env", chars ".pytest_cache", chars "coverage",
   chars ".next", chars "public", chars "npm_modules", chars ".cache", chars "vibestudio"]

/-- CONFIG ignored_folders (line 36): the lower-cased folder names. -/
def ignored_folders : List (List Char) := IGNORED_FOLDERS_LIST.map lowerStr

/-- IGNORED_FILES_LIST (lines 38-43). -/
def IGNORED_FILES_LIST : List (List Char) :=
  [chars "package-lock.json", chars "yarn.lock", chars "pnpm-lock.yaml", chars "Cargo.lock",
   chars "composer.lock", chars "Gemfile.lock", chars ".env", chars ".env.local",
   chars "LICENSE", chars "CHANGELOG.md", chars ".gitignore", chars ".gitattributes",
   chars "tsconfig.json", chars "webpack.config.js", chars "next-env.d.ts", chars ".eslintrc.json"]

/-- CONFIG ignored_files (line 44): the lower-cased file names. -/
def ignored_files : List (List Char) := IGNORED_FILES_LIST.map lowerStr

/-- A directory tree: a directory name, the plain files directly inside it,
and its subdirectories.  This models the filesystem os.walk traverses. -/
inductive FSTree : Type where
  | node (dname : List Char) (files : List (List Char)) (subdirs : List FSTree)

/-- Name of the directory at the root of the tree. -/
def FSTree.dname : FSTree → List Char
  | .node n _ _ => n

/-- The directory-pruning test of walk_code_files (lines 90 and 98): the
lower-cased basename is in ignored_folders, or equals "vibestudio". -/
def isIgnoredDir (d : List Char) : Bool :=
  ignored_folders.contains (lowerStr d) || lowerStr d == chars "vibestudio"

/-- The per-file filter of walk_code_files (lines 104-110): skip files whose
lower-cased name is in ignored_files, keep files whose name ends with one of
the requested extension strings (plain case-sensitive suffix test). -/
def file_kept (extensions : List (List Char)) (filename : List Char) : Bool :=
  !(ignored_files.contains (lowerStr filename)) && extensions.any (fun ext => ext.isSuffixOf filename)

mutual
/-- walk_code_files (lines 73-110) on one directory node.  os.walk is top-down:
the files of the current directory are yielded first (unless the directory's own
basename is ignored, line 98, which skips only the file processing), then the
subdirectories are traversed; ignored subdirectories were pruned from the dirs
list (lines 87-95) and are never entered, which walk_forest models by not
recursing into them.  The yielded pair is (directory path, filename): paths are
lists of directory-name segments, the scanned root being the first segment. -/
def walk_code_files (extensions : List (List Char)) (path : List (List Char)) :
    FSTree → List (List (List Char) × List Char)
  | .node dn files subdirs =>
    (if isIgnoredDir dn then []
     else (files.filter (file_kept extensions)).map (fun f => (path ++ [dn], f)))
      ++ walk_forest extensions (path ++ [dn]) subdirs
/-- Traversal of the pruned subdirectory list (lines 87-95): an ignored
subdirectory is removed before descending, so its subtree contributes nothing. -/
def walk_forest (extensions : List (List Char)) (path : List (List Char)) :
    List FSTree → List (List (List Char) × List Char)
  | [] => []
  | t :: ts =>
    (if isIgnoredDir t.dname then [] else walk_code_files extensions path t)
      ++ walk_forest extensions path ts
end

/-- The character class of the substitution regex in sanitize_rel_path
(line 184): backslash, slash, colon, star, question mark, double quote,
angle brackets, pipe, space. -/
def reClassChar (c : Char) : Bool :=
  c == '\\' || c == '/' || c == ':' || c == '*' || c == '?' || c == '"' ||
  c == '<' || c == '>' || c == '|' || c == ' '

/-- re.sub of one-or-more reClassChar by a single underscore (line 184).
The boolean flag records whether the previous character was part of a run
already replaced by an underscore. -/
def squashRuns : Bool → List Char → List Char
  | _, [] => []
  | inRun, c :: cs =>
    if reClassChar c then (if inRun then [] else ['_']) ++ squashRuns true cs
    else c :: squashRuns false cs

/-- sanitize_rel_path (lines 183-187): replace runs of replaced-class characters by a
single underscore, then cap at 200 characters with a truncation suffix. -/
def sanitize_rel_path (rel_path : List Char) : List Char :=
  let safe := squashRuns false rel_path
  if safe.length > 200 then safe.take 200 ++ chars "_truncated" else safe

/-- Decimal digit list of a natural number, little helper for the f-strings
(part numbers, file numbers) appearing in the merge output.  The first
argument is fuel; natRepr supplies enough of it. -/
def natReprAux : Nat → Nat → List Char
  | 0, _ => []
  | fuel+1, n =>
    if n < 10 then [Nat.digitChar n]
    else natReprAux fuel (n / 10) ++ [Nat.digitChar (n % 10)]

/-- Decimal representation of a natural number as a character list. -/
def natRepr (n : Nat) : List Char := natReprAux (n + 1) n

/-- Python slice content[a:b] for 0 <= a, b (indices already clamped). -/
def pySlice (content : List Char) (a b : Nat) : List Char := (content.drop a).take (b - a)

/-- The ASCII whitespace characters stripped by Python str.strip (the inputs
of interest contain no non-ASCII whitespace). -/
def pySpaceChar (c : Char) : Bool :=
  c == ' ' || c == '\t' || c == '\n' || c == '\r' || c == '\x0b' || c == '\x0c'

/-- Python str.strip(): remove leading and trailing whitespace. -/
def pyStrip (s : List Char) : List Char :=
  ((s.dropWhile pySpaceChar).reverse.dropWhile pySpaceChar).reverse

/-- Continuation-byte style range test on a byte. -/
def u8Range (lo hi : Nat) (b : Fin 256) : Bool :=
  decide (lo ≤ b.val) && decide (b.val ≤ hi)

/-- Admissible second byte of a three-byte UTF-8 sequence (strict decoding:
no overlong forms, no surrogates). -/
def utf8Cont2Ok (b b1 : Fin 256) : Bool :=
  if b.val = 0xE0 then u8Range 0xA0 0xBF b1
  else if b.val = 0xED then u8Range 0x80 0x9F b1
  else u8Range 0x80 0xBF b1

/-- Admissible second byte of a four-byte UTF-8 sequence (strict decoding:
no overlong forms, nothing above U+10FFFF). -/
def utf8Cont3Ok (b b1 : Fin 256) : Bool :=
  if b.val = 0xF0 then u8Range 0x90 0xBF b1
  else if b.val = 0xF4 then u8Range 0x80 0x8F b1
  else u8Range 0x80 0xBF b1

/-- Strict UTF-8 decoding, as performed by Python codecs for encoding utf-8:
fails (returns none, the model of UnicodeDecodeError) on any ill-formed input.
First argument is fuel, at least the length of the byte list. -/
def utf8DecodeAux : Nat → List (Fin 256) → Option (List Char)
  | _, [] => some []
  | 0, _ :: _ => none
  | fuel+1, b :: bs =>
    if b.val ≤ 0x7F then
      (utf8DecodeAux fuel bs).map (fun r => Char.ofNat b.val :: r)
    else if 0xC2 ≤ b.val ∧ b.val ≤ 0xDF then
      match bs with
      | b1 :: rest =>
        if u8Range 0x80 0xBF b1 then
          (utf8DecodeAux fuel rest).map
            (fun r => Char.ofNat ((b.val - 0xC0) * 0x40 + (b1.val - 0x80)) :: r)
        else none
      | [] => none
    else if 0xE0 ≤ b.val ∧ b.val ≤ 0xEF then
      match bs with
      | b1 :: b2 :: rest =>
        if utf8Cont2Ok b b1 && u8Range 0x80 0xBF b2 then
          (utf8DecodeAux fuel rest).map
            (fun r => Char.ofNat ((b.val - 0xE0) * 0x1000 + (b1.val - 0x80) * 0x40 + (b2.val - 0x80)) :: r)
        else none
      | _ => none
    else if 0xF0 ≤ b.val ∧ b.val ≤ 0xF4 then
      match bs with
      | b1 :: b2 :: b3 :: rest =>
        if utf8Cont3Ok b b1 && u8Range 0x80 0xBF b2 && u8Range 0x80 0xBF b3 then
          (utf8DecodeAux fuel rest).map
            (fun r => Char.ofNat ((b.val - 0xF0) * 0x40000 + (b1.val - 0x80) * 0x1000 +
              (b2.val - 0x80) * 0x40 + (b3.val - 0x80)) :: r)
        else none
      | _ => none
    else none

/-- Decoding a byte list with Python encoding utf-8 (strict). -/
def utf8Decode (bs : List (Fin 256)) : Option (List Char) := utf8DecodeAux bs.length bs

/-- Decoding with Python encoding utf-8-sig: strip a UTF-8 byte-order mark if
present, then decode as utf-8. -/
def utf8SigDecode (bs : List (Fin 256)) : Option (List Char) :=
  match bs with
  | b0 :: b1 :: b2 :: rest =>
    if b0.val = 0xEF ∧ b1.val = 0xBB ∧ b2.val = 0xBF then utf8Decode rest else utf8Decode bs
  | _ => utf8Decode bs

/-- Decoding with Python encoding latin-1: total, every byte maps to the
code point of the same value. -/
def latin1Decode (bs : List (Fin 256)) : List Char := bs.map (fun b => Char.ofNat b.val)

/-- The cp1252 mapping for bytes 0x80-0x9F that are defined in that code page. -/
def cp1252Extra : List (Nat × Nat) :=
  [(0x80, 0x20AC), (0x82, 0x201A), (0x83, 0x0192), (0x84, 0x201E), (0x85, 0x2026),
   (0x86, 0x2020), (0x87, 0x2021), (0x88, 0x02C6), (0x89, 0x2030), (0x8A, 0x0160),
   (0x8B, 0x2039), (0x8C, 0x0152), (0x8E, 0x017D), (0x91, 0x2018), (0x92, 0x2019),
   (0x93, 0x201C), (0x94, 0x201D), (0x95, 0x2022), (0x96, 0x2013), (0x97, 0x2014),
   (0x98, 0x02DC), (0x99, 0x2122), (0x9A, 0x0161), (0x9B, 0x203A), (0x9C, 0x0153),
   (0x9E, 0x017E), (0x9F, 0x0178)]

/-- cp1252 translation of one byte; none for the five undefined bytes
(0x81, 0x8D, 0x8F, 0x90, 0x9D), on which strict decoding fails. -/
def cp1252MapByte (b : Nat) : Option Nat :=
  if b < 0x80 ∨ 0xA0 ≤ b then some b
  else
    match cp1252Extra.find? (fun kv => kv.1 == b) with
    | some kv => some kv.2
    | none => none

/-- Decoding with Python encoding cp1252 (strict). -/
def cp1252Decode (bs : List (Fin 256)) : Option (List Char) :=
  bs.mapM (fun b => (cp1252MapByte b).map Char.ofNat)

/-- Universal-newline translation done by Python text-mode reads: a CRLF pair
or a lone CR becomes a single LF. -/
def translateNewlines : List Char → List Char
  | [] => []
  | '\r' :: '\n' :: rest => '\n' :: translateNewlines rest
  | '\r' :: rest => '\n' :: translateNewlines rest
  | c :: rest => c :: translateNewlines rest

/-- The four text encodings tried in order (line 320). -/
inductive PyEncoding : Type where
  | utf8 | utf8sig | latin1 | cp1252
deriving DecidableEq

/-- encodings_to_try (line 320). -/
def encodings_to_try : List PyEncoding := [.utf8, .utf8sig, .latin1, .cp1252]

/-- One text-mode read attempt: decode the file bytes with the given encoding
and, on success, apply universal-newline translation (the open is in text
mode).  none models UnicodeDecodeError. -/
def decodeWith : PyEncoding → List (Fin 256) → Option (List Char)
  | .utf8, bs => (utf8Decode bs).map translateNewlines
  | .utf8sig, bs => (utf8SigDecode bs).map translateNewlines
  | .latin1, bs => some (translateNewlines (latin1Decode bs))
  | .cp1252, bs => (cp1252Decode bs).map translateNewlines

/-- The encoding loop of lines 321-331: try each encoding in order, stop at
the first success.  (The generic non-Unicode exception branch of lines
328-330, an OS-level read failure, is outside this byte-level model.) -/
def tryDecode : List PyEncoding → List (Fin 256) → Option (List Char)
  | [], _ => none
  | e :: es, bs =>
    match decodeWith e bs with
    | some c => some c
    | none => tryDecode es bs

/-- Reading one staged file (lines 318-345): try the encodings in order; if
all fail (the for-else branch), read the first 1024 bytes in binary mode,
skip the file if the sample contains a null byte (none), otherwise use the
latin-1 decoding of that sample with errors="replace" (which for latin-1
never substitutes anything). -/
def pyReadContent (bs : List (Fin 256)) : Option (List Char) :=
  match tryDecode encodings_to_try bs with
  | some content => some content
  | none =>
    let sample := bs.take 1024
    if sample.any (fun b => b.val = 0) then none
    else some (latin1Decode sample)

/-- Modelled from the claim wording for C6: successive encodings until one
succeeds; if and only if all fail, sample the first 1KB, skip on a null byte,
otherwise decode THE FILE with the lossy latin-1 fallback.  This differs
textually from pyReadContent only in the unreachable fallback branch, which
decodes the whole file rather than the sample. -/
def readSpecC6 (bs : List (Fin 256)) : Option (List Char) :=
  match tryDecode encodings_to_try bs with
  | some content => some content
  | none =>
    let sample := bs.take 1024
    if sample.any (fun b => b.val = 0) then none
    else some (latin1Decode bs)

/-- The six declaration-introducing tokens searched for by the smart split
(lines 366-371), each preceded by a line break. -/
def declTokens : List (List Char) :=
  [chars "\nfunction ", chars "\ndef ", chars "\nfunc ", chars "\nclass ",
   chars "\nexport ", chars "\nimport "]

/-- The recognized source-code extensions of the smart split (line 354). -/
def code_extensions : List (List Char) :=
  [chars ".py", chars ".js", chars ".ts", chars ".gd", chars ".java",
   chars ".cpp", chars ".c", chars ".cs", chars ".tsx", chars ".jsx"]

/-- is_code_file (line 354): the original name ends with a recognized
source-code extension. -/
def is_code_file (original_name : List Char) : Bool :=
  code_extensions.any (fun ext => ext.isSuffixOf original_name)

/-- The token tok occurs in content starting at index i (and fits inside
content). -/
def matchesAt (content tok : List Char) (i : Nat) : Bool :=
  (content.drop i).take tok.length == tok

/-- Candidate test of Python str.rfind(sub, start, stop): position i is at
least start, the occurrence fits below stop, and the characters match. -/
def rfindCand (content tok : List Char) (start stop i : Nat) : Bool :=
  decide (start ≤ i) && decide (i + tok.length ≤ stop) && matchesAt content tok i

/-- Downward scan for the greatest candidate position at most the last
argument. -/
def rfindAux (content tok : List Char) (start stop : Nat) : Nat → Option Nat
  | 0 => if rfindCand content tok start stop 0 then some 0 else none
  | i+1 =>
    if rfindCand content tok start stop (i+1) then some (i+1)
    else rfindAux content tok start stop i

/-- Python content.rfind(tok, start, stop) for a nonempty tok: the greatest
index i with start <= i, i + len(tok) <= min(stop, len(content)) and a match
at i; -1 when there is none. -/
def pyRfind (content tok : List Char) (start stop : Nat) : Int :=
  let stopC := min stop content.length
  match rfindAux content tok start stopC stopC with
  | some i => (i : Int)
  | none => -1

/-- Maximum of the rfind results over a token list; on the six declTokens this
equals the six-argument max of lines 365-372 (max is associative and
commutative, and every rfind result is at least -1). -/
def rfindMax (content : List Char) (start stop : Nat) : List (List Char) → Int
  | [] => -1
  | tok :: toks => max (pyRfind content tok start stop) (rfindMax content start stop toks)

/-- One iteration of the chunk-carving loop (lines 357-381), returning the new
temp_offset.  In every branch of the source the carved chunk is
content[temp_offset:X] where X is the updated temp_offset, so the chunk is
recovered as pySlice content temp_offset (nextCut ...). -/
def nextCut (isCode : Bool) (content : List Char) (available temp_offset : Nat) : Nat :=
  if content.length ≤ temp_offset + available then content.length
  else if isCode then
    if (temp_offset : Int) <
        rfindMax content temp_offset (temp_offset + available) declTokens then
      (rfindMax content temp_offset (temp_offset + available) declTokens).toNat
    else temp_offset + available
  else temp_offset + available

/-- The while loop of lines 357-382 with explicit fuel (the source loop
terminates whenever available is positive; pySplit supplies enough fuel).
A carved chunk is appended only when nonempty after stripping (line 382). -/
def pySplitFuel (isCode : Bool) (content : List Char) (available : Nat) :
    Nat → Nat → List (List Char)
  | 0, _ => []
  | fuel+1, temp_offset =>
    if temp_offset < content.length then
      let noff := nextCut isCode content available temp_offset
      let chunk := pySlice content temp_offset noff
      if pyStrip chunk ≠ [] then chunk :: pySplitFuel isCode content available fuel noff
      else pySplitFuel isCode content available fuel noff
    else []

/-- The splits list produced by the carving loop for one oversized file. -/
def pySplit (isCode : Bool) (content : List Char) (available : Nat) : List (List Char) :=
  pySplitFuel isCode content available (content.length + 1) 0

/-- Ghost variant of the carving loop that keeps every carved chunk, including
whitespace-only ones; used to state what the split loses. -/
def carveAllFuel (isCode : Bool) (content : List Char) (available : Nat) :
    Nat → Nat → List (List Char)
  | 0, _ => []
  | fuel+1, temp_offset =>
    if temp_offset < content.length then
      let noff := nextCut isCode content available temp_offset
      pySlice content temp_offset noff :: carveAllFuel isCode content available fuel noff
    else []

/-- All carved chunks of one oversized file, before the whitespace filter. -/
def carveAll (isCode : Bool) (content : List Char) (available : Nat) : List (List Char) :=
  carveAllFuel isCode content available (content.length + 1) 0

/-- The 100-character banner of equal signs used by the entry headers. -/
def eqBanner : List Char := List.replicate 100 '='

/-- The header-size estimation template of line 347 (literal part markers
X and Y). -/
def header_est_str (original_name : List Char) : List Char :=
  eqBanner ++ chars "\nFile: " ++ original_name ++ chars " (Part X of Y)\n" ++ eqBanner ++ chars "\n\n"

/-- header_est (line 347). -/
def header_est (original_name : List Char) : Nat := (header_est_str original_name).length

/-- index_est (line 348). -/
def index_est : Nat := 150

/-- The per-chunk budget available = max_chars - header_est - index_est
(line 358); the source computes it in Python integers, and the carving loop
only terminates when it is positive, so the Nat truncation at zero only
affects configurations on which the source would never return. -/
def avail (original_name : List Char) (max_chars : Nat) : Nat :=
  max_chars - header_est original_name - index_est

/-- The per-part entry header of line 389. -/
def part_header (original_name : List Char) (part_num total_parts : Nat) : List Char :=
  eqBanner ++ chars "\nFile: " ++ original_name ++ chars " (Part " ++ natRepr part_num ++
    chars " of " ++ natRepr total_parts ++ chars ")\n" ++ eqBanner ++ chars "\n\n"

/-- The index display path of a split part (line 390). -/
def path_disp (rel_path : List Char) (part_num total_parts : Nat) : List Char :=
  rel_path ++ chars " (Part " ++ natRepr part_num ++ chars "/" ++ natRepr total_parts ++ chars ")"

/-- The per-file entry header of line 398. -/
def file_header (original_name : List Char) : List Char :=
  eqBanner ++ chars "\nFile: " ++ original_name ++ chars "\n" ++ eqBanner ++ chars "\n\n"

/-- One staged input file of the merge step: the unique key (staged file name
with the trailing ".txt" removed, line 303) and the raw bytes of the staged
copy. -/
structure StagedInput : Type where
  key : List Char
  bytes : List (Fin 256)
deriving DecidableEq

/-- One element of buffer_files (lines 392 and 405): the original name, the
index display path, and the rendered entry text.  The payload field is ghost
data recording the raw content (or chunk) framed inside the rendered entry; it
is written by no other part of the state and lets the round-trip theorems say
what an output contains without re-parsing the rendered text. -/
structure BufEntry : Type where
  name : List Char
  path : List Char
  content : List Char
  payload : List Char
deriving DecidableEq

/-- One written output file: its name and the buffer it was flushed from.
renderOutput recovers the exact written text. -/
structure OutputFile : Type where
  fname : List Char
  entries : List BufEntry
deriving DecidableEq

/-- The mutable state of merge_text_files (lines 255-258): output counter,
pending buffer, its running size, and (in place of the filesystem) the list of
written output files. -/
structure MergeState : Type where
  file_index : Nat
  buffer_files : List BufEntry
  buffer_content_size : Nat
  outputs : List OutputFile
deriving DecidableEq

/-- Initial state (lines 255-258): file_index = 1, empty buffer. -/
def initialMergeState : MergeState :=
  { file_index := 1, buffer_files := [], buffer_content_size := 0, outputs := [] }

/-- The index body lines (lines 272-274): File #i: path, 1-based. -/
def renderIndexAux : Nat → List BufEntry → List Char
  | _, [] => []
  | i, e :: es => (chars "File #" ++ natRepr (i+1) ++ chars ": " ++ e.path ++ chars "\n")
      ++ renderIndexAux (i+1) es

/-- The full index block of write_buffer (lines 268-277): header line, one
line per entry, 35 dashes, blank line.  Every entry stores a path field
(both append sites, lines 392 and 405, set it), so the .get default of
line 273 never applies. -/
def renderIndex (entries : List BufEntry) : List Char :=
  chars "--- INDEX OF FILES IN THIS MERGE ---\n" ++ renderIndexAux 0 entries ++
    List.replicate 35 '-' ++ chars "\n\n"

/-- The final_output text written by write_buffer (line 278): index block
followed by the concatenated rendered entries. -/
def renderOutput (o : OutputFile) : List Char :=
  renderIndex o.entries ++ (o.entries.map BufEntry.content).flatten

/-- write_buffer (lines 263-299): if the buffer is empty do nothing; otherwise
append an output file named name_pfx (split parts pass the complete name,
line 393) or name_pfx-file_index.txt, clear the buffer and its size, and step
file_index unless this was a single-file split part. -/
def write_buffer (st : MergeState) (name_pfx : List Char) (is_single_file_split : Bool) :
    MergeState :=
  if st.buffer_files = [] then st
  else
    let name :=
      if is_single_file_split then name_pfx
      else name_pfx ++ chars "-" ++ natRepr st.file_index ++ chars ".txt"
    { file_index := if is_single_file_split then st.file_index else st.file_index + 1
      buffer_files := []
      buffer_content_size := 0
      outputs := st.outputs ++ [{ fname := name, entries := st.buffer_files }] }

/-- The for loop over split chunks (lines 387-393): each chunk becomes a
single-entry buffer flushed immediately as its own output file named
pfx-file_index-part_num.txt; file_index stays fixed during these writes. -/
def writeSplitParts (pfx original_name rel_path : List Char) (total_parts : Nat) :
    Nat → List (List Char) → MergeState → MergeState
  | _, [], st => st
  | i, chunk :: rest, st =>
    let part_num := i + 1
    let entry : BufEntry :=
      { name := original_name
        path := path_disp rel_path part_num total_parts
        content := part_header original_name part_num total_parts ++ chunk ++ chars "\n\n"
        payload := chunk }
    let st1 := write_buffer { st with buffer_files := st.buffer_files ++ [entry] }
        (pfx ++ chars "-" ++ natRepr st.file_index ++ chars "-" ++ natRepr part_num ++ chars ".txt")
        true
    writeSplitParts pfx original_name rel_path total_parts (i+1) rest st1

/-- Lookup of unique_key in the loaded file_map (lines 305-312); entries are
(unique_key, (original_filename, rel_path)). -/
def lookupMap (file_map : List (List Char × List Char × List Char)) (k : List Char) :
    Option (List Char × List Char) :=
  match file_map.find? (fun kv => kv.1 == k) with
  | some kv => some kv.2
  | none => none

/-- Display-name resolution for one staged key (lines 305-312): in fallback
mode, or when the key is missing from the map, both the display name and the
display path are the key itself. -/
def resolveNames (file_map : List (List Char × List Char × List Char))
    (fallback_mode : Bool) (k : List Char) : List Char × List Char :=
  match (if fallback_mode then none else lookupMap file_map k) with
  | some r => r
  | none => (k, k)

/-- The body of the per-file loop of merge_text_files (lines 301-406) for one
staged file: resolve display names (fallback mode, lines 305-312), read the
content (skip on a binary file), then either run the oversize split path
(lines 349-396) or the normal buffering path (lines 398-406). -/
def processFile (max_chars : Nat) (pfx : List Char)
    (file_map : List (List Char × List Char × List Char)) (fallback_mode : Bool)
    (st : MergeState) (f : StagedInput) : MergeState :=
  let original_name := (resolveNames file_map fallback_mode f.key).1
  let rel_path := (resolveNames file_map fallback_mode f.key).2
  match pyReadContent f.bytes with
  | none => st
  | some content =>
    if content.length + header_est original_name + index_est > max_chars then
      let st1 := write_buffer st pfx false
      let splits := pySplit (is_code_file original_name) content (avail original_name max_chars)
      let st2 := writeSplitParts pfx original_name rel_path splits.length 0 splits st1
      { st2 with file_index := st2.file_index + 1 }
    else
      let entry_content := file_header original_name ++ content ++ chars "\n\n"
      let future_index := (st.buffer_files.map BufEntry.path).flatten ++ rel_path
      let st1 :=
        if st.buffer_files ≠ [] ∧
            st.buffer_content_size + entry_content.length + future_index.length + 100 > max_chars
        then write_buffer st pfx false else st
      { st1 with
        buffer_files := st1.buffer_files ++
          [{ name := original_name, path := rel_path, content := entry_content, payload := content }]
        buffer_content_size := st1.buffer_content_size + entry_content.length }

/-- The sort key comparison of line 247: the sorted() call compares the full
joined paths, which share the constant staging-folder part, so the order is
the lexicographic order of the staged file names, hence of the keys. -/
def keyLe (a b : StagedInput) : Bool := decide (a.key ≤ b.key)

/-- The sort order as a relation. -/
def keyRel (a b : StagedInput) : Prop := keyLe a b = true

instance : DecidableRel keyRel := fun a b => inferInstanceAs (Decidable (keyLe a b = true))

instance : IsTotal StagedInput keyRel :=
  ⟨fun a b => by simp only [keyRel, keyLe, decide_eq_true_eq]; exact le_total _ _⟩

instance : IsTrans StagedInput keyRel :=
  ⟨fun a b c h1 h2 => by
    simp only [keyRel, keyLe, decide_eq_true_eq] at h1 h2 ⊢
    exact le_trans h1 h2⟩

/-- A sort of the staged inputs by key (line 247).  Insertion sort; any
correct sort models sorted() here, and on runs whose keys are distinct (staged
file names are names in one directory) the sorted sequence is unique anyway. -/
def sortStaged (l : List StagedInput) : List StagedInput := List.insertionSort keyRel l

/-- merge_text_files (lines 228-411) on explicit inputs: the staged files (in
arbitrary directory-listing order), the loaded file_map, the fallback flag,
max_chars, and the output filename stem.  Returns the final state; the
outputs field lists the written files in order. -/
def merge_text_files (inputs : List StagedInput)
    (file_map : List (List Char × List Char × List Char)) (fallback_mode : Bool)
    (max_chars : Nat) (pfx : List Char) : MergeState :=
  let source_files := sortStaged inputs
  let st := source_files.foldl (processFile max_chars pfx file_map fallback_mode) initialMergeState
  write_buffer st pfx false

/-- Concatenation of all ghost payloads of all written outputs, in order:
the text of the run with index blocks and entry framing removed. -/
def runPayloadConcat (st : MergeState) : List Char :=
  (st.outputs.map (fun o => (o.entries.map BufEntry.payload).flatten)).flatten

/-- Ghost payloads still sitting in the buffer. -/
def bufPayloadConcat (st : MergeState) : List Char :=
  (st.buffer_files.map BufEntry.payload).flatten

/-- What one staged file contributes to the payload stream of the run: nothing
if it is skipped as binary, the kept split chunks if it takes the oversize
path, its whole content otherwise. -/
def contribution (max_chars : Nat) (file_map : List (List Char × List Char × List Char))
    (fallback_mode : Bool) (f : StagedInput) : List Char :=
  let original_name := (resolveNames file_map fallback_mode f.key).1
  match pyReadContent f.bytes with
  | none => []
  | some content =>
    if content.length + header_est original_name + index_est > max_chars then
      (pySplit (is_code_file original_name) content (avail original_name max_chars)).flatten
    else content

/-- Claim C2's reading of the round-trip right-hand side: the concatenation,
in processing order, of the contents of all staged files that are not skipped
as binary. -/
def nonSkippedConcat (inputs : List StagedInput) : List Char :=
  ((sortStaged inputs).map (fun f => (pyReadContent f.bytes).getD [])).flatten

/-- Sum of the rendered entry sizes in the buffer (what buffer_content_size
tracks, line 406). -/
def bufContentSize (st : MergeState) : Nat :=
  (st.buffer_files.map (fun e => e.content.length)).sum

/-- Sum of the display-path sizes in the buffer (what the future_index length
of line 401 adds up). -/
def bufPathSize (st : MergeState) : Nat :=
  (st.buffer_files.map (fun e => e.path.length)).sum

/-- The output-size bound that actually holds: a written file exceeds
max_chars by at most twice its own index block. -/
def goodOutput (max_chars : Nat) (o : OutputFile) : Prop :=
  (renderOutput o).length ≤ max_chars + 2 * (renderIndex o.entries).length

/-- Invariant of the merge loop tying buffer_content_size to the buffer and
recording the size hygiene of the pending buffer. -/
def mergeInv (max_chars : Nat) (st : MergeState) : Prop :=
  (∀ o ∈ st.outputs, goodOutput max_chars o) ∧
  st.buffer_content_size = bufContentSize st ∧
  (st.buffer_files.length = 1 → bufContentSize st + 162 ≤ max_chars) ∧
  (2 ≤ st.buffer_files.length → bufContentSize st + bufPathSize st + 100 ≤ max_chars)

/-- Some token of the list admits an rfind candidate at position j. -/
def candAny (content : List Char) (start stop : Nat) (toks : List (List Char)) (j : Nat) : Prop :=
  ∃ tok ∈ toks, rfindCand content tok start stop j = true

/-- No two adjacent characters both belong to the replaced character class. -/
def noAdjacentRe : List Char → Bool
  | [] => true
  | [_] => true
  | a :: b :: rest => (!(reClassChar a && reClassChar b)) && noAdjacentRe (b :: rest)

/-- Relative paths on which sanitization is collision-free: at most 200
characters, no underscore, the only characters of the replaced class are
single (non-adjacent) slash separators. -/
def plainSegPath (p : List Char) : Prop :=
  p.length ≤ 200 ∧ '_' ∉ p ∧ (∀ c ∈ p, reClassChar c = true → c = '/') ∧
    noAdjacentRe p = true

instance (content : List Char) (start stop : Nat) (toks : List (List Char)) (j : Nat) :
    Decidable (candAny content start stop toks j) :=
  inferInstanceAs (Decidable (∃ tok ∈ toks, rfindCand content tok start stop j = true))

instance (p : List Char) : Decidable (plainSegPath p) :=
  inferInstanceAs (Decidable (p.length ≤ 200 ∧ '_' ∉ p ∧
    (∀ c ∈ p, reClassChar c = true → c = '/') ∧ noAdjacentRe p = true))

/-- Character translation performed by sanitization on a plainSegPath. -/
def slashToUnderscore (c : Char) : Char := if c = '/' then '_' else c

/-- A concrete one-file run used to exhibit the output-size overshoot: a one
character file whose mapped relative path is 600 characters long, with
max_chars 400. -/
def c4Run : MergeState :=
  merge_text_files [{ key := chars "a", bytes := [(120 : Fin 256)] }]
    [(chars "a", chars "a", List.replicate 600 'p')] false 400 (chars "MergedFile")

/-! Theorems.  First the library of facts about the embedded definitions,
then one theorem (plus witness or counterexample) per specification claim. -/

theorem chars_cons (c : Char) (s : List Char) : c :: s = [c] ++ s := rfl

theorem natRepr_one : natRepr 1 = ['1'] := rfl

theorem len_file_header (n : List Char) : (file_header n).length = 210 + n.length := by
  simp [file_header, eqBanner, chars]
  omega

theorem header_est_eq (n : List Char) : header_est n = 224 + n.length := by
  simp [header_est, header_est_str, eqBanner, chars]
  omega

theorem len_part_header (n : List Char) (p t : Nat) :
    (part_header n p t).length =
      222 + n.length + (natRepr p).length + (natRepr t).length := by
  simp [part_header, eqBanner, chars]
  omega

theorem len_path_disp (r : List Char) (p t : Nat) :
    (path_disp r p t).length = r.length + 9 + (natRepr p).length + (natRepr t).length := by
  simp [path_disp, chars]
  omega

theorem len_renderIndex_single (e : BufEntry) :
    (renderIndex [e]).length = 84 + e.path.length := by
  simp [renderIndex, renderIndexAux, natRepr_one, chars]
  omega

theorem noAdjacentRe_tail :
    ∀ (c : Char) (cs : List Char), noAdjacentRe (c :: cs) = true → noAdjacentRe cs = true
  | _, [], _ => rfl
  | c, d :: cs, h => by
    simp only [noAdjacentRe, Bool.and_eq_true] at h
    exact h.2

theorem squashRuns_plain :
    ∀ (p : List Char) (b : Bool),
      (∀ c ∈ p, reClassChar c = true → c = '/') →
      noAdjacentRe p = true →
      (b = true → ∀ c, p.head? = some c → reClassChar c = false) →
      squashRuns b p = p.map slashToUnderscore
  | [], b, _, _, _ => by cases b <;> rfl
  | c :: cs, b, hcls, hch, hhd => by
    by_cases h : reClassChar c = true
    · have hc : c = '/' := hcls c (by simp) h
      have hb : b = false := by
        cases b with
        | false => rfl
        | true => exact absurd h (by simp [hhd rfl c rfl])
      subst hb hc
      have hhd' : ∀ c, cs.head? = some c → reClassChar c = false := by
        intro d hd
        cases cs with
        | nil => simp at hd
        | cons d' cs' =>
          simp at hd
          subst hd
          simp only [noAdjacentRe, Bool.and_eq_true, Bool.not_eq_true'] at hch
          have := hch.1
          simp [h] at this
          simp [this]
      have := squashRuns_plain cs true (fun d hd => hcls d (by simp [hd]))
        (noAdjacentRe_tail _ _ hch) (fun _ => hhd')
      simp [squashRuns, h, this, slashToUnderscore]
    · have hne : c ≠ '/' := by
        intro hc
        subst hc
        simp [reClassChar] at h
      have := squashRuns_plain cs false (fun d hd => hcls d (by simp [hd]))
        (noAdjacentRe_tail _ _ hch) (by simp)
      simp [squashRuns, h, this, slashToUnderscore, hne]

theorem mapSlash_inj :
    ∀ p q : List Char, '_' ∉ p → '_' ∉ q →
      p.map slashToUnderscore = q.map slashToUnderscore → p = q
  | [], [], _, _, _ => rfl
  | [], _ :: _, _, _, h => by simp at h
  | _ :: _, [], _, _, h => by simp at h
  | a :: p, b :: q, hp, hq, h => by
    simp only [List.map_cons, List.cons.injEq] at h
    have hab : a = b := by
      rcases h with ⟨h1, _⟩
      by_cases ha : a = '/'
      · by_cases hb : b = '/'
        · rw [ha, hb]
        · exfalso
          simp [slashToUnderscore, ha, hb] at h1
          exact hq (by simp [← h1])
      · by_cases hb : b = '/'
        · exfalso
          simp [slashToUnderscore, ha, hb] at h1
          exact hp (by simp [h1])
        · simpa [slashToUnderscore, ha, hb] using h1
    have := mapSlash_inj p q (by simp at hp; simp [hp]) (by simp at hq; simp [hq]) h.2
    simp [hab, this]

theorem sanitize_plain (p : List Char) (hp : plainSegPath p) :
    sanitize_rel_path p = p.map slashToUnderscore := by
  obtain ⟨hlen, _, hcls, hch⟩ := hp
  have hsq : squashRuns false p = p.map slashToUnderscore :=
    squashRuns_plain p false hcls hch (by simp)
  simp only [sanitize_rel_path, hsq, List.length_map]
  simp [Nat.not_lt.2 hlen]

theorem tryDecode_encodings_ne_none (bs : List (Fin 256)) :
    tryDecode encodings_to_try bs ≠ none := by
  rw [encodings_to_try]
  simp only [tryDecode, decodeWith]
  rcases utf8Decode bs with _ | c1 <;> rcases utf8SigDecode bs with _ | c2 <;> simp

theorem keyRel_iff (a b : StagedInput) : keyRel a b ↔ a.key ≤ b.key := by
  simp [keyRel, keyLe]

theorem sortStaged_perm (l : List StagedInput) : (sortStaged l).Perm l :=
  List.perm_insertionSort keyRel l

theorem sortStaged_sorted (l : List StagedInput) : List.Sorted keyRel (sortStaged l) :=
  List.sorted_insertionSort keyRel l

theorem sorted_nodupkeys_unique (l₁ l₂ : List StagedInput) (hperm : l₁.Perm l₂)
    (h₁ : List.Sorted keyRel l₁) (h₂ : List.Sorted keyRel l₂)
    (hnd : (l₁.map StagedInput.key).Nodup) : l₁ = l₂ := by
  have hnd₂ : (l₂.map StagedInput.key).Nodup := ((hperm.map StagedInput.key).nodup_iff).1 hnd
  have hne₁ : l₁.Pairwise (fun a b => a.key ≠ b.key) := List.pairwise_map.1 hnd
  have hne₂ : l₂.Pairwise (fun a b => a.key ≠ b.key) := List.pairwise_map.1 hnd₂
  have hS₁ : l₁.Pairwise (fun a b : StagedInput => a.key < b.key) :=
    (h₁.and hne₁).imp (fun h => lt_of_le_of_ne ((keyRel_iff _ _).1 h.1) h.2)
  have hS₂ : l₂.Pairwise (fun a b : StagedInput => a.key < b.key) :=
    (h₂.and hne₂).imp (fun h => lt_of_le_of_ne ((keyRel_iff _ _).1 h.1) h.2)
  haveI : IsAntisymm StagedInput (fun a b : StagedInput => a.key < b.key) :=
    ⟨fun a b hab hba => absurd (lt_trans hab hba) (lt_irrefl _)⟩
  exact List.eq_of_perm_of_sorted (r := fun a b : StagedInput => a.key < b.key) hperm hS₁ hS₂

mutual
theorem walk_code_files_shape (exts path : List (List Char)) (t : FSTree)
    (d : List (List Char)) (f : List Char) (h : (d, f) ∈ walk_code_files exts path t) :
    ∃ rest, d = path ++ t.dname :: rest ∧ ∀ s ∈ rest, isIgnoredDir s = false := by
  cases t with
  | node dn files subdirs =>
    rw [walk_code_files] at h
    rcases List.mem_append.1 h with h' | h'
    · refine ⟨[], ?_, by simp⟩
      split at h'
      · simp at h'
      · rcases List.mem_map.1 h' with ⟨x, _, hx⟩
        cases hx
        simp [FSTree.dname]
    · rcases walk_forest_shape exts (path ++ [dn]) subdirs d f h' with
        ⟨t', _, hnotig, rest', hd, hrest'⟩
      refine ⟨t'.dname :: rest', by simpa [FSTree.dname] using hd, ?_⟩
      intro s hs
      rcases List.mem_cons.1 hs with hs | hs
      · rw [hs]; exact hnotig
      · exact hrest' s hs
theorem walk_forest_shape (exts path : List (List Char)) (ts : List FSTree)
    (d : List (List Char)) (f : List Char) (h : (d, f) ∈ walk_forest exts path ts) :
    ∃ t ∈ ts, isIgnoredDir t.dname = false ∧
      ∃ rest, d = path ++ t.dname :: rest ∧ ∀ s ∈ rest, isIgnoredDir s = false := by
  cases ts with
  | nil => simp [walk_forest] at h
  | cons t ts =>
    rw [walk_forest] at h
    rcases List.mem_append.1 h with h' | h'
    · split at h'
      · simp at h'
      · rcases walk_code_files_shape exts path t d f h' with ⟨rest, hd, hrest⟩
        exact ⟨t, by simp, by simp_all, rest, hd, hrest⟩
    · rcases walk_forest_shape exts path ts d f h' with ⟨t', ht', hni, rest, hd, hrest⟩
      exact ⟨t', by simp [ht'], hni, rest, hd, hrest⟩
end

theorem rfindAux_some_spec (c tok : List Char) (s st : Nat) :
    ∀ n i, rfindAux c tok s st n = some i →
      rfindCand c tok s st i = true ∧ i ≤ n ∧
        ∀ j, j ≤ n → rfindCand c tok s st j = true → j ≤ i
  | 0, i, h => by
    by_cases hcnd : rfindCand c tok s st 0 = true
    · simp only [rfindAux, if_pos hcnd] at h
      cases h
      exact ⟨hcnd, le_refl _, fun j hj _ => hj⟩
    · simp only [rfindAux, if_neg hcnd] at h
      simp at h
  | n+1, i, h => by
    by_cases hcnd : rfindCand c tok s st (n+1) = true
    · simp only [rfindAux, if_pos hcnd] at h
      cases h
      exact ⟨hcnd, le_refl _, fun j hj _ => hj⟩
    · simp only [rfindAux, if_neg hcnd] at h
      rcases rfindAux_some_spec c tok s st n i h with ⟨h1, h2, h3⟩
      refine ⟨h1, le_trans h2 (Nat.le_succ n), fun j hj hc => ?_⟩
      rcases Nat.eq_or_lt_of_le hj with heq | hlt
      · exact absurd (heq ▸ hc) hcnd
      · exact h3 j (Nat.lt_succ_iff.1 hlt) hc

theorem rfindAux_none_spec (c tok : List Char) (s st : Nat) :
    ∀ n, rfindAux c tok s st n = none → ∀ j, j ≤ n → rfindCand c tok s st j = false
  | 0, h, j, hj => by
    by_cases hcnd : rfindCand c tok s st 0 = true
    · simp only [rfindAux, if_pos hcnd] at h
      simp at h
    · have hj0 : j = 0 := Nat.le_zero.1 hj
      subst hj0
      exact Bool.eq_false_iff.2 hcnd
  | n+1, h, j, hj => by
    by_cases hcnd : rfindCand c tok s st (n+1) = true
    · simp only [rfindAux, if_pos hcnd] at h
      simp at h
    · simp only [rfindAux, if_neg hcnd] at h
      rcases Nat.eq_or_lt_of_le hj with heq | hlt
      · subst heq
        exact Bool.eq_false_iff.2 hcnd
      · exact rfindAux_none_spec c tok s st n h j (Nat.lt_succ_iff.1 hlt)

theorem pyRfind_spec (c tok : List Char) (s st : Nat) (hst : st ≤ c.length) :
    (pyRfind c tok s st = -1 ∧ ∀ j, rfindCand c tok s st j = false) ∨
    (∃ i : Nat, pyRfind c tok s st = (i : Int) ∧ rfindCand c tok s st i = true ∧
      ∀ j, rfindCand c tok s st j = true → j ≤ i) := by
  have hmin : min st c.length = st := min_eq_left hst
  rcases h : rfindAux c tok s st st with _ | i
  · left
    constructor
    · simp [pyRfind, hmin, h]
    · intro j
      by_cases hj : j ≤ st
      · exact rfindAux_none_spec c tok s st st h j hj
      · apply Bool.eq_false_iff.2
        intro hc
        simp only [rfindCand, Bool.and_eq_true, decide_eq_true_eq] at hc
        omega
  · right
    rcases rfindAux_some_spec c tok s st st i h with ⟨h1, h2, h3⟩
    refine ⟨i, by simp [pyRfind, hmin, h], h1, fun j hc => ?_⟩
    by_cases hj : j ≤ st
    · exact h3 j hj hc
    · exfalso
      simp only [rfindCand, Bool.and_eq_true, decide_eq_true_eq] at hc
      omega

theorem rfindMax_spec (c : List Char) (s st : Nat) (hst : st ≤ c.length) :
    ∀ toks : List (List Char),
      (rfindMax c s st toks = -1 ∧ ∀ j, ¬ candAny c s st toks j) ∨
      (∃ i : Nat, rfindMax c s st toks = (i : Int) ∧ candAny c s st toks i ∧
        ∀ j, candAny c s st toks j → j ≤ i)
  | [] => by
    left
    exact ⟨rfl, by simp [candAny]⟩
  | tok :: toks => by
    rcases pyRfind_spec c tok s st hst with ⟨ha, hano⟩ | ⟨i₁, ha, hc₁, hm₁⟩ <;>
      rcases rfindMax_spec c s st hst toks with ⟨hb, hbno⟩ | ⟨i₂, hb, hc₂, hm₂⟩
    · left
      refine ⟨by simp [rfindMax, ha, hb], fun j hj => ?_⟩
      rcases hj with ⟨tk, htk, hcand⟩
      rcases List.mem_cons.1 htk with rfl | htk'
      · rw [hano j] at hcand
        cases hcand
      · exact hbno j ⟨tk, htk', hcand⟩
    · right
      have hmax : rfindMax c s st (tok :: toks) = (i₂ : Int) := by
        rw [rfindMax, ha, hb]
        exact max_eq_right (by omega)
      refine ⟨i₂, hmax, ?_, fun j hj => ?_⟩
      · rcases hc₂ with ⟨tk, htk, hcand⟩
        exact ⟨tk, List.mem_cons_of_mem tok htk, hcand⟩
      · rcases hj with ⟨tk, htk, hcand⟩
        rcases List.mem_cons.1 htk with rfl | htk'
        · rw [hano j] at hcand
          cases hcand
        · exact hm₂ j ⟨tk, htk', hcand⟩
    · right
      have hmax : rfindMax c s st (tok :: toks) = (i₁ : Int) := by
        rw [rfindMax, ha, hb]
        exact max_eq_left (by omega)
      refine ⟨i₁, hmax, ⟨tok, List.mem_cons_self tok toks, hc₁⟩, fun j hj => ?_⟩
      rcases hj with ⟨tk, htk, hcand⟩
      rcases List.mem_cons.1 htk with rfl | htk'
      · exact hm₁ j hcand
      · exact absurd ⟨tk, htk', hcand⟩ (hbno j)
    · right
      rcases le_total (i₁ : Int) (i₂ : Int) with hle | hle
      · have hmax : rfindMax c s st (tok :: toks) = (i₂ : Int) := by
          rw [rfindMax, ha, hb]
          exact max_eq_right hle
        refine ⟨i₂, hmax, ?_, fun j hj => ?_⟩
        · rcases hc₂ with ⟨tk, htk, hcand⟩
          exact ⟨tk, List.mem_cons_of_mem tok htk, hcand⟩
        · rcases hj with ⟨tk, htk, hcand⟩
          rcases List.mem_cons.1 htk with rfl | htk'
          · exact le_trans (hm₁ j hcand) (by omega)
          · exact hm₂ j ⟨tk, htk', hcand⟩
      · have hmax : rfindMax c s st (tok :: toks) = (i₁ : Int) := by
          rw [rfindMax, ha, hb]
          exact max_eq_left hle
        refine ⟨i₁, hmax, ⟨tok, List.mem_cons_self tok toks, hc₁⟩, fun j hj => ?_⟩
        rcases hj with ⟨tk, htk, hcand⟩
        rcases List.mem_cons.1 htk with rfl | htk'
        · exact hm₁ j hcand
        · exact le_trans (hm₂ j ⟨tk, htk', hcand⟩) (by omega)

theorem declTokens_nonempty : ∀ tok ∈ declTokens, 1 ≤ tok.length := by decide

theorem nextCut_le_length (ic : Bool) (c : List Char) (a off : Nat) :
    nextCut ic c a off ≤ c.length := by
  unfold nextCut
  split_ifs with h1 h2 h3
  · exact le_refl _
  · rcases rfindMax_spec c off (off + a) (by omega) declTokens with ⟨hm, _⟩ | ⟨i, hm, hc, _⟩
    · rw [hm] at h3
      omega
    · rw [hm] at h3 ⊢
      rcases hc with ⟨tok, _, hcand⟩
      simp only [rfindCand, Bool.and_eq_true, decide_eq_true_eq] at hcand
      omega
  · omega
  · omega

theorem nextCut_le_add (ic : Bool) (c : List Char) (a off : Nat) :
    nextCut ic c a off ≤ off + a := by
  unfold nextCut
  split_ifs with h1 h2 h3
  · exact h1
  · rcases rfindMax_spec c off (off + a) (by omega) declTokens with ⟨hm, _⟩ | ⟨i, hm, hc, _⟩
    · rw [hm] at h3
      omega
    · rw [hm] at h3 ⊢
      rcases hc with ⟨tok, _, hcand⟩
      simp only [rfindCand, Bool.and_eq_true, decide_eq_true_eq] at hcand
      omega
  · exact le_refl _
  · exact le_refl _

theorem nextCut_progress (ic : Bool) (c : List Char) (a off : Nat) (ha : 0 < a)
    (hoff : off < c.length) : off < nextCut ic c a off := by
  unfold nextCut
  split_ifs with h1 h2 h3
  · exact hoff
  · omega
  · omega
  · omega

theorem carveAllFuel_flatten (ic : Bool) (c : List Char) (a : Nat) (ha : 0 < a) :
    ∀ fuel off, c.length - off ≤ fuel →
      (carveAllFuel ic c a fuel off).flatten = c.drop off
  | 0, off, hf => by
    have hoff : c.length ≤ off := by omega
    simp [carveAllFuel, List.drop_eq_nil_of_le hoff]
  | fuel+1, off, hf => by
    by_cases hoff : off < c.length
    · have hprog := nextCut_progress ic c a off ha hoff
      have hlen := nextCut_le_length ic c a off
      rw [carveAllFuel]
      simp only [if_pos hoff, List.flatten_cons]
      rw [carveAllFuel_flatten ic c a ha fuel (nextCut ic c a off) (by omega)]
      rw [pySlice]
      have hdd : (c.drop off).drop (nextCut ic c a off - off) = c.drop (nextCut ic c a off) := by
        rw [List.drop_drop]
        congr 1
        omega
      rw [← hdd, List.take_append_drop]
    · rw [carveAllFuel]
      simp [if_neg hoff, List.drop_eq_nil_of_le (Nat.le_of_not_lt hoff)]

theorem carveAllFuel_chunk_le (ic : Bool) (c : List Char) (a : Nat) :
    ∀ fuel off ch, ch ∈ carveAllFuel ic c a fuel off → ch.length ≤ a
  | 0, off, ch, h => by simp [carveAllFuel] at h
  | fuel+1, off, ch, h => by
    by_cases hoff : off < c.length
    · rw [carveAllFuel] at h
      simp only [if_pos hoff] at h
      rcases List.mem_cons.1 h with rfl | h'
      · have hle := nextCut_le_add ic c a off
        calc (pySlice c off (nextCut ic c a off)).length
            ≤ nextCut ic c a off - off := by
              rw [pySlice]
              exact le_trans (List.length_take_le _ _) (le_refl _)
          _ ≤ a := by omega
      · exact carveAllFuel_chunk_le ic c a fuel (nextCut ic c a off) ch h'
    · rw [carveAllFuel] at h
      simp [if_neg hoff] at h

theorem carveAllFuel_pos (ic : Bool) (c : List Char) (a : Nat) (fuel off : Nat)
    (hoff : off < c.length) (hfuel : 0 < fuel) :
    1 ≤ (carveAllFuel ic c a fuel off).length := by
  cases fuel with
  | zero => omega
  | succ fuel =>
    rw [carveAllFuel]
    simp [if_pos hoff]

theorem carveAll_two_le (ic : Bool) (c : List Char) (a : Nat) (ha : 0 < a)
    (hlen : a < c.length) : 2 ≤ (carveAll ic c a).length := by
  have h0 : 0 < c.length := by omega
  rw [carveAll, carveAllFuel]
  simp only [if_pos h0, List.length_cons]
  have hnoff_lt : nextCut ic c a 0 < c.length := by
    have := nextCut_le_add ic c a 0
    omega
  have := carveAllFuel_pos ic c a c.length (nextCut ic c a 0) hnoff_lt h0
  omega

theorem pySplitFuel_eq_filter (ic : Bool) (c : List Char) (a : Nat) :
    ∀ fuel off, pySplitFuel ic c a fuel off =
      (carveAllFuel ic c a fuel off).filter (fun ch => decide (pyStrip ch ≠ []))
  | 0, off => by simp [pySplitFuel, carveAllFuel]
  | fuel+1, off => by
    by_cases hoff : off < c.length
    · rw [pySplitFuel, carveAllFuel]
      simp only [if_pos hoff, List.filter_cons]
      by_cases hs : pyStrip (pySlice c off (nextCut ic c a off)) ≠ [] <;>
        simp [hs, pySplitFuel_eq_filter ic c a fuel (nextCut ic c a off)]
    · rw [pySplitFuel, carveAllFuel]
      simp [if_neg hoff]

theorem pySplit_chunk_facts (ic : Bool) (c : List Char) (a : Nat) :
    ∀ ch ∈ pySplit ic c a, ch.length ≤ a ∧ pyStrip ch ≠ [] := by
  intro ch h
  rw [pySplit, pySplitFuel_eq_filter] at h
  have hmem := List.mem_of_mem_filter h
  have hstrip := List.of_mem_filter h
  refine ⟨carveAllFuel_chunk_le ic c a _ 0 ch hmem, ?_⟩
  simpa using hstrip

theorem pySplitFuel_ge_len (ic : Bool) (c : List Char) (a : Nat) (fuel off : Nat)
    (h : c.length ≤ off) : pySplitFuel ic c a fuel off = [] := by
  cases fuel with
  | zero => rfl
  | succ fuel =>
    rw [pySplitFuel]
    simp [Nat.not_lt.2 h]

theorem pySplitFuel_stable (ic : Bool) (c : List Char) (a : Nat) (ha : 0 < a) :
    ∀ f₁ f₂ off, c.length - off ≤ f₁ → c.length - off ≤ f₂ →
      pySplitFuel ic c a f₁ off = pySplitFuel ic c a f₂ off
  | 0, f₂, off, h1, h2 => by
    have hoff : c.length ≤ off := by omega
    rw [pySplitFuel_ge_len ic c a 0 off hoff, pySplitFuel_ge_len ic c a f₂ off hoff]
  | f₁+1, f₂, off, h1, h2 => by
    by_cases hoff : off < c.length
    · obtain ⟨f₂', rfl⟩ : ∃ f₂', f₂ = f₂' + 1 := by
        cases f₂ with
        | zero => omega
        | succ f₂' => exact ⟨f₂', rfl⟩
      have hprog := nextCut_progress ic c a off ha hoff
      have hlen := nextCut_le_length ic c a off
      have hrec := pySplitFuel_stable ic c a ha f₁ f₂' (nextCut ic c a off)
        (by omega) (by omega)
      rw [pySplitFuel, pySplitFuel]
      simp only [if_pos hoff, hrec]
    · rw [pySplitFuel_ge_len ic c a _ off (Nat.le_of_not_lt hoff),
        pySplitFuel_ge_len ic c a f₂ off (Nat.le_of_not_lt hoff)]

theorem write_buffer_buffer_nil (st : MergeState) (pfx : List Char) (b : Bool) :
    (write_buffer st pfx b).buffer_files = [] := by
  unfold write_buffer
  split_ifs with h hb
  · exact h
  · rfl
  · rfl

theorem write_buffer_payload (st : MergeState) (pfx : List Char) (b : Bool) :
    runPayloadConcat (write_buffer st pfx b) ++ bufPayloadConcat (write_buffer st pfx b) =
      runPayloadConcat st ++ bufPayloadConcat st := by
  unfold write_buffer
  split_ifs with h hb
  · rfl
  · simp [runPayloadConcat, bufPayloadConcat, List.map_append, List.flatten_append]
  · simp [runPayloadConcat, bufPayloadConcat, List.map_append, List.flatten_append]

theorem append_cancel_mid {α : Type} (a₁ b₁ a₂ b₂ x : List α)
    (h : a₁ ++ b₁ = a₂ ++ b₂) : a₁ ++ (b₁ ++ x) = a₂ ++ (b₂ ++ x) := by
  rw [← List.append_assoc, h, List.append_assoc]

theorem writeSplitParts_payload (pfx orig rel : List Char) (total : Nat) :
    ∀ (chunks : List (List Char)) (i : Nat) (st : MergeState),
      runPayloadConcat (writeSplitParts pfx orig rel total i chunks st) ++
        bufPayloadConcat (writeSplitParts pfx orig rel total i chunks st) =
      runPayloadConcat st ++ (bufPayloadConcat st ++ chunks.flatten)
  | [], i, st => by simp [writeSplitParts]
  | ch :: rest, i, st => by
    rw [writeSplitParts]
    have hbufapp : bufPayloadConcat { st with buffer_files := st.buffer_files ++
        [{ name := orig, path := path_disp rel (i+1) total,
           content := part_header orig (i+1) total ++ ch ++ chars "\n\n", payload := ch }] } =
        bufPayloadConcat st ++ ch := by
      simp [bufPayloadConcat, List.map_append, List.flatten_append]
    have hrunapp : runPayloadConcat { st with buffer_files := st.buffer_files ++
        [{ name := orig, path := path_disp rel (i+1) total,
           content := part_header orig (i+1) total ++ ch ++ chars "\n\n", payload := ch }] } =
        runPayloadConcat st := rfl
    have h1 := write_buffer_payload { st with buffer_files := st.buffer_files ++
        [{ name := orig, path := path_disp rel (i+1) total,
           content := part_header orig (i+1) total ++ ch ++ chars "\n\n", payload := ch }] }
      (pfx ++ chars "-" ++ natRepr st.file_index ++ chars "-" ++ natRepr (i+1) ++ chars ".txt")
      true
    rw [hbufapp, hrunapp] at h1
    have h2 := writeSplitParts_payload pfx orig rel total rest (i+1)
      (write_buffer { st with buffer_files := st.buffer_files ++
        [{ name := orig, path := path_disp rel (i+1) total,
           content := part_header orig (i+1) total ++ ch ++ chars "\n\n", payload := ch }] }
        (pfx ++ chars "-" ++ natRepr st.file_index ++ chars "-" ++ natRepr (i+1) ++ chars ".txt")
        true)
    rw [h2, List.flatten_cons]
    have h3 := append_cancel_mid _ _ _ _ rest.flatten h1
    rw [h3]
    simp [List.append_assoc]

theorem runPayload_bump (st : MergeState) (n : Nat) :
    runPayloadConcat { st with file_index := n } = runPayloadConcat st := rfl

theorem bufPayload_bump (st : MergeState) (n : Nat) :
    bufPayloadConcat { st with file_index := n } = bufPayloadConcat st := rfl

theorem runPayload_append_entry (st : MergeState) (e : BufEntry) (n : Nat) :
    runPayloadConcat
        { st with buffer_files := st.buffer_files ++ [e], buffer_content_size := n } =
      runPayloadConcat st := rfl

theorem bufPayload_append_entry (st : MergeState) (e : BufEntry) (n : Nat) :
    bufPayloadConcat
        { st with buffer_files := st.buffer_files ++ [e], buffer_content_size := n } =
      bufPayloadConcat st ++ e.payload := by
  simp [bufPayloadConcat, List.map_append, List.flatten_append]

theorem processFile_payload (mc : Nat) (pfx : List Char)
    (fm : List (List Char × List Char × List Char)) (fb : Bool)
    (st : MergeState) (f : StagedInput) :
    runPayloadConcat (processFile mc pfx fm fb st f) ++
      bufPayloadConcat (processFile mc pfx fm fb st f) =
    runPayloadConcat st ++ (bufPayloadConcat st ++ contribution mc fm fb f) := by
  unfold processFile contribution
  rcases hread : pyReadContent f.bytes with _ | content
  · simp
  · simp only []
    split_ifs with hov hfl
    · have h1 := write_buffer_payload st pfx false
      have h2 := writeSplitParts_payload pfx (resolveNames fm fb f.key).1
        (resolveNames fm fb f.key).2
        (pySplit (is_code_file (resolveNames fm fb f.key).1) content
          (avail (resolveNames fm fb f.key).1 mc)).length
        (pySplit (is_code_file (resolveNames fm fb f.key).1) content
          (avail (resolveNames fm fb f.key).1 mc)) 0 (write_buffer st pfx false)
      rw [runPayload_bump, bufPayload_bump, h2,
        append_cancel_mid _ _ _ _ _ h1]
    · have h1 := write_buffer_payload st pfx false
      rw [runPayload_append_entry, bufPayload_append_entry,
        ← List.append_assoc, ← List.append_assoc, h1, List.append_assoc]
    · rw [runPayload_append_entry, bufPayload_append_entry, List.append_assoc]

theorem foldl_payload (mc : Nat) (pfx : List Char)
    (fm : List (List Char × List Char × List Char)) (fb : Bool) :
    ∀ (l : List StagedInput) (st : MergeState),
      runPayloadConcat (l.foldl (processFile mc pfx fm fb) st) ++
        bufPayloadConcat (l.foldl (processFile mc pfx fm fb) st) =
      runPayloadConcat st ++ (bufPayloadConcat st ++ (l.map (contribution mc fm fb)).flatten)
  | [], st => by simp
  | f :: l, st => by
    simp only [List.foldl_cons, List.map_cons, List.flatten_cons]
    rw [foldl_payload mc pfx fm fb l (processFile mc pfx fm fb st f),
      append_cancel_mid _ _ _ _ _ (processFile_payload mc pfx fm fb st f)]
    simp [List.append_assoc]

theorem renderOutput_length (o : OutputFile) :
    (renderOutput o).length =
      (renderIndex o.entries).length + (o.entries.map (fun e => e.content.length)).sum := by
  simp only [renderOutput, List.length_append, List.length_flatten, List.map_map]
  rfl

theorem bufContentSize_append (st : MergeState) (e : BufEntry) (n : Nat) :
    bufContentSize
        { st with buffer_files := st.buffer_files ++ [e], buffer_content_size := n } =
      bufContentSize st + e.content.length := by
  simp [bufContentSize]

theorem bufPathSize_append (st : MergeState) (e : BufEntry) (n : Nat) :
    bufPathSize
        { st with buffer_files := st.buffer_files ++ [e], buffer_content_size := n } =
      bufPathSize st + e.path.length := by
  simp [bufPathSize]

theorem flatten_path_length (l : List BufEntry) :
    ((l.map BufEntry.path).flatten).length = (l.map (fun e => e.path.length)).sum := by
  simp only [List.length_flatten, List.map_map]
  rfl

theorem pyStrip_ne_nil (ch : List Char) (h : pyStrip ch ≠ []) : ch ≠ [] := by
  intro hc
  subst hc
  exact h rfl

theorem write_buffer_inv (mc : Nat) (st : MergeState) (pfx : List Char) (b : Bool)
    (h : mergeInv mc st) : mergeInv mc (write_buffer st pfx b) := by
  obtain ⟨hout, hsz, h1, h2⟩ := h
  have hgood : st.buffer_files ≠ [] → bufContentSize st ≤ mc := by
    intro hne
    have hpos : 0 < st.buffer_files.length := List.length_pos.2 hne
    rcases Nat.lt_or_ge st.buffer_files.length 2 with hlt | hge
    · have : st.buffer_files.length = 1 := by omega
      have := h1 this
      omega
    · have := h2 hge
      omega
  unfold write_buffer
  split_ifs with hb hsplit
  all_goals first
  | exact ⟨hout, hsz, h1, h2⟩
  | · refine ⟨?_, by simp [bufContentSize], by intro hc; simp at hc, by intro hc; simp at hc⟩
      intro o ho
      rcases List.mem_append.1 ho with ho | ho
      · exact hout o ho
      · have hoe := List.mem_singleton.1 ho
        subst hoe
        rw [goodOutput, renderOutput_length]
        have := hgood (by simpa using hb)
        simp only [bufContentSize] at this
        dsimp only
        omega

theorem splitPart_output_good (mc : Nat) (fname orig rel ch : List Char) (p t : Nat)
    (hch : ch.length ≤ avail orig mc) (hne : ch ≠ []) :
    goodOutput mc { fname := fname, entries := [{ name := orig, path := path_disp rel p t, content := part_header orig p t ++ ch ++ chars "\n\n", payload := ch }] } := by
  rw [goodOutput, renderOutput_length]
  dsimp only
  have e1 : (renderIndex [({ name := orig, path := path_disp rel p t, content := part_header orig p t ++ ch ++ chars "\n\n", payload := ch } : BufEntry)]).length = 84 + (path_disp rel p t).length := by
    simp [len_renderIndex_single]
  have e2 := len_path_disp rel p t
  have e3 := len_part_header orig p t
  have hav : ch.length ≤ mc - (224 + orig.length) - 150 := by
    simpa [avail, header_est_eq, index_est] using hch
  have hpos : 1 ≤ ch.length := List.length_pos.2 hne
  have hnn : (chars "\n\n").length = 2 := rfl
  simp only [List.map_cons, List.map_nil, List.sum_cons, List.sum_nil, List.length_append]
  omega

theorem write_buffer_single (st : MergeState) (e : BufEntry) (nm : List Char)
    (hb : st.buffer_files = []) :
    write_buffer { st with buffer_files := st.buffer_files ++ [e] } nm true =
      { st with buffer_files := [], buffer_content_size := 0, outputs := st.outputs ++ [{ fname := nm, entries := [e] }] } := by
  rw [hb]
  unfold write_buffer
  simp

theorem writeSplitParts_inv (mc : Nat) (pfx orig rel : List Char) (t : Nat) :
    ∀ (chunks : List (List Char)) (i : Nat) (st : MergeState),
      st.buffer_files = [] → st.buffer_content_size = 0 →
      (∀ o ∈ st.outputs, goodOutput mc o) →
      (∀ ch ∈ chunks, ch.length ≤ avail orig mc ∧ pyStrip ch ≠ []) →
      (writeSplitParts pfx orig rel t i chunks st).buffer_files = [] ∧
      (writeSplitParts pfx orig rel t i chunks st).buffer_content_size = 0 ∧
      ∀ o ∈ (writeSplitParts pfx orig rel t i chunks st).outputs, goodOutput mc o
  | [], _, st, hb, hs, ho, _ => ⟨hb, hs, ho⟩
  | ch :: rest, i, st, hb, hs, ho, hch => by
    rw [writeSplitParts, write_buffer_single st _ _ hb]
    refine writeSplitParts_inv mc pfx orig rel t rest (i+1) _ rfl rfl ?_
      (fun c hc => hch c (by simp [hc]))
    intro o hmem
    rcases List.mem_append.1 hmem with hmem | hmem
    · exact ho o hmem
    · rw [List.mem_singleton.1 hmem]
      exact splitPart_output_good mc _ orig rel ch (i+1) t (hch ch (by simp)).1
        (pyStrip_ne_nil ch (hch ch (by simp)).2)

theorem index_est_eq : index_est = 150 := rfl

theorem processFile_inv (mc : Nat) (pfx : List Char)
    (fm : List (List Char × List Char × List Char)) (fb : Bool)
    (st : MergeState) (f : StagedInput) (h : mergeInv mc st) :
    mergeInv mc (processFile mc pfx fm fb st f) := by
  obtain ⟨hout, hsz, h1, h2⟩ := h
  unfold processFile
  rcases hread : pyReadContent f.bytes with _ | content
  · exact ⟨hout, hsz, h1, h2⟩
  · simp only []
    split_ifs with hov hfl
    · have hwb := write_buffer_inv mc st pfx false ⟨hout, hsz, h1, h2⟩
      obtain ⟨hwout, hwsz, _, _⟩ := hwb
      have hbufnil := write_buffer_buffer_nil st pfx false
      have hwsz0 : (write_buffer st pfx false).buffer_content_size = 0 := by
        rw [hwsz]
        simp [bufContentSize, hbufnil]
      obtain ⟨hb2, hs2, ho2⟩ := writeSplitParts_inv mc pfx (resolveNames fm fb f.key).1
        (resolveNames fm fb f.key).2
        (pySplit (is_code_file (resolveNames fm fb f.key).1) content
          (avail (resolveNames fm fb f.key).1 mc)).length
        (pySplit (is_code_file (resolveNames fm fb f.key).1) content
          (avail (resolveNames fm fb f.key).1 mc))
        0 (write_buffer st pfx false) hbufnil hwsz0 hwout
        (pySplit_chunk_facts _ content _)
      refine ⟨fun o ho => ho2 o ho, ?_, ?_, ?_⟩
      · show (writeSplitParts pfx (resolveNames fm fb f.key).1 (resolveNames fm fb f.key).2
            (pySplit (is_code_file (resolveNames fm fb f.key).1) content
              (avail (resolveNames fm fb f.key).1 mc)).length 0
            (pySplit (is_code_file (resolveNames fm fb f.key).1) content
              (avail (resolveNames fm fb f.key).1 mc))
            (write_buffer st pfx false)).buffer_content_size = _
        rw [hs2]
        simp [bufContentSize, hb2]
      · intro hlen
        simp only [List.length_eq_one] at hlen
        rcases hlen with ⟨e, he⟩
        rw [hb2] at he
        cases he
      · intro hlen
        simp only [hb2, List.length_nil] at hlen
        omega
    · have hwb := write_buffer_inv mc st pfx false ⟨hout, hsz, h1, h2⟩
      obtain ⟨hwout, hwsz, _, _⟩ := hwb
      have hbufnil := write_buffer_buffer_nil st pfx false
      have hwsz0 : (write_buffer st pfx false).buffer_content_size = 0 := by
        rw [hwsz]
        simp [bufContentSize, hbufnil]
      refine ⟨fun o ho => hwout o ho, ?_, ?_, ?_⟩
      · rw [bufContentSize_append, hwsz]
      · intro _
        rw [bufContentSize_append]
        have h0 : bufContentSize (write_buffer st pfx false) = 0 := by
          simp [bufContentSize, hbufnil]
        have hfh := len_file_header (resolveNames fm fb f.key).1
        have hEst := header_est_eq (resolveNames fm fb f.key).1
        have hnn : (chars "\n\n").length = 2 := rfl
        rw [index_est_eq] at hov
        simp only [List.length_append] at hov ⊢
        omega
      · intro hlen
        simp only [hbufnil, List.nil_append, List.length_cons, List.length_nil] at hlen
        omega
    · push_neg at hfl
      refine ⟨fun o ho => hout o ho, ?_, ?_, ?_⟩
      · rw [bufContentSize_append, hsz]
      · intro hlen
        simp only [List.length_append, List.length_cons, List.length_nil] at hlen
        have hb0 : st.buffer_files = [] := List.length_eq_zero.1 (by omega)
        rw [bufContentSize_append]
        have h0 : bufContentSize st = 0 := by simp [bufContentSize, hb0]
        have hfh := len_file_header (resolveNames fm fb f.key).1
        have hEst := header_est_eq (resolveNames fm fb f.key).1
        have hnn : (chars "\n\n").length = 2 := rfl
        rw [index_est_eq] at hov
        simp only [List.length_append] at hov ⊢
        omega
      · intro hlen
        simp only [List.length_append, List.length_cons, List.length_nil] at hlen
        have hne : st.buffer_files ≠ [] := by
          intro hnil
          rw [hnil] at hlen
          simp at hlen
        have hcheck := hfl hne
        rw [bufContentSize_append, bufPathSize_append]
        have hflat : ((st.buffer_files.map BufEntry.path).flatten).length = bufPathSize st :=
          flatten_path_length st.buffer_files
        dsimp only
        simp only [List.length_append] at hcheck ⊢
        omega

theorem initial_inv (mc : Nat) : mergeInv mc initialMergeState := by
  refine ⟨by simp [initialMergeState], rfl, ?_, ?_⟩
  · intro hc
    simp [initialMergeState] at hc
  · intro hc
    simp [initialMergeState] at hc

theorem foldl_inv (mc : Nat) (pfx : List Char)
    (fm : List (List Char × List Char × List Char)) (fb : Bool) :
    ∀ (l : List StagedInput) (st : MergeState), mergeInv mc st →
      mergeInv mc (l.foldl (processFile mc pfx fm fb) st)
  | [], _, h => h
  | f :: l, st, h => by
    simp only [List.foldl_cons]
    exact foldl_inv mc pfx fm fb l _ (processFile_inv mc pfx fm fb st f h)

/-- Claim C1, counterexample: a 401-character all-whitespace file with
max_chars 400 (content length alone exceeds max_chars, carving budget 25 is
positive) produces zero split parts, so it is neither split into at least two
parts nor is the concatenation of the parts equal to the content. -/
theorem claim_C1_counterexample :
    400 < (List.replicate 401 ' ').length ∧ 0 < avail (chars "a") 400 ∧
    ¬(2 ≤ (pySplit (is_code_file (chars "a")) (List.replicate 401 ' ')
        (avail (chars "a") 400)).length ∧
      (pySplit (is_code_file (chars "a")) (List.replicate 401 ' ')
        (avail (chars "a") 400)).flatten = List.replicate 401 ' ') := by
  decide

/-- Claim C1, amended: for every staged file whose content length alone
exceeds max_chars and whose carving budget is positive, the loop carves at
least two chunks whose concatenation equals the content exactly; the emitted
parts are exactly these chunks with the whitespace-only ones discarded
(line 382), so the split is lossless precisely up to that discard. -/
theorem claim_C1_amended (orig content : List Char) (mc : Nat)
    (hover : mc < content.length) (hav : 0 < avail orig mc) :
    2 ≤ (carveAll (is_code_file orig) content (avail orig mc)).length ∧
    (carveAll (is_code_file orig) content (avail orig mc)).flatten = content ∧
    pySplit (is_code_file orig) content (avail orig mc) =
      (carveAll (is_code_file orig) content (avail orig mc)).filter
        (fun ch => decide (pyStrip ch ≠ [])) := by
  have hlt : avail orig mc < content.length :=
    lt_of_le_of_lt (le_trans (Nat.sub_le _ _) (Nat.sub_le _ _)) hover
  refine ⟨carveAll_two_le _ _ _ hav hlt, ?_, ?_⟩
  · have := carveAllFuel_flatten (is_code_file orig) content (avail orig mc) hav
      (content.length + 1) 0 (by omega)
    simpa [carveAll] using this
  · rw [pySplit, carveAll]
    exact pySplitFuel_eq_filter _ _ _ _ _

/-- Witness for claim C1's amended theorem at a concrete oversized file. -/
theorem claim_C1_witness :
    (400 < (List.replicate 401 'x').length ∧ 0 < avail (chars "a") 400) ∧
    (2 ≤ (carveAll (is_code_file (chars "a")) (List.replicate 401 'x')
        (avail (chars "a") 400)).length ∧
      (carveAll (is_code_file (chars "a")) (List.replicate 401 'x')
        (avail (chars "a") 400)).flatten = List.replicate 401 'x' ∧
      pySplit (is_code_file (chars "a")) (List.replicate 401 'x') (avail (chars "a") 400) =
        (carveAll (is_code_file (chars "a")) (List.replicate 401 'x')
          (avail (chars "a") 400)).filter (fun ch => decide (pyStrip ch ≠ []))) :=
  ⟨⟨by decide, by decide⟩,
    claim_C1_amended (chars "a") (List.replicate 401 'x') 400 (by decide) (by decide)⟩

/-- Claim C2, counterexample: a run over one staged file of 26 spaces with
max_chars 400.  The file is not skipped as binary, yet the run writes no
output at all (every carved chunk is whitespace-only and discarded), so no
reading of "concatenating the outputs minus headers and index" can reproduce
the staged content. -/
theorem claim_C2_counterexample :
    pyReadContent (List.replicate 26 (32 : Fin 256)) ≠ none ∧
    (merge_text_files [{ key := chars "a", bytes := List.replicate 26 (32 : Fin 256) }]
        [(chars "a", chars "a", chars "a")] false 400 (chars "MergedFile")).outputs = [] ∧
    runPayloadConcat (merge_text_files [{ key := chars "a", bytes := List.replicate 26 (32 : Fin 256) }]
        [(chars "a", chars "a", chars "a")] false 400 (chars "MergedFile")) ≠
      nonSkippedConcat [{ key := chars "a", bytes := List.replicate 26 (32 : Fin 256) }] := by
  decide

/-- Claim C2, amended: concatenating, over all written output files in order,
the framed payloads (the text left after removing the index blocks and the
per-entry header banners and trailing separators) equals the concatenation,
in processing order, of each staged file's contribution, where a
binary-skipped file contributes nothing, an oversized file contributes its
kept split chunks (whitespace-only chunks are discarded), and every other
file contributes its entire content. -/
theorem claim_C2_amended (inputs : List StagedInput)
    (fm : List (List Char × List Char × List Char)) (fb : Bool) (mc : Nat) (pfx : List Char) :
    runPayloadConcat (merge_text_files inputs fm fb mc pfx) =
      ((sortStaged inputs).map (contribution mc fm fb)).flatten := by
  simp only [merge_text_files]
  set stF := (sortStaged inputs).foldl (processFile mc pfx fm fb) initialMergeState with hstF
  have h1 := write_buffer_payload stF pfx false
  have h2 := foldl_payload mc pfx fm fb (sortStaged inputs) initialMergeState
  have hbufnil := write_buffer_buffer_nil stF pfx false
  have hbp : bufPayloadConcat (write_buffer stF pfx false) = [] := by
    simp [bufPayloadConcat, hbufnil]
  have hinit1 : runPayloadConcat initialMergeState = [] := rfl
  have hinit2 : bufPayloadConcat initialMergeState = [] := rfl
  rw [hinit1, hinit2] at h2
  simp only [List.nil_append] at h2
  calc runPayloadConcat (write_buffer stF pfx false)
      = runPayloadConcat (write_buffer stF pfx false) ++
          bufPayloadConcat (write_buffer stF pfx false) := by rw [hbp, List.append_nil]
    _ = runPayloadConcat stF ++ bufPayloadConcat stF := h1
    _ = ((sortStaged inputs).map (contribution mc fm fb)).flatten := h2

/-- Claim C3, counterexample: scanning a tree whose root directory is itself
named node_modules (an ignored name) still yields files from the root's
non-ignored subdirectories, so a file under an ignored-named directory is
yielded. -/
theorem claim_C3_counterexample :
    isIgnoredDir (chars "node_modules") = true ∧
    ([chars "node_modules", chars "sub"], chars "x.js") ∈
      walk_code_files [chars ".js"] []
        (FSTree.node (chars "node_modules") [chars "y.js"]
          [FSTree.node (chars "sub") [chars "x.js"] []]) := by
  decide

/-- Claim C3, amended: pruning is complete strictly below the scan root:
every yielded (directory, filename) pair lies on a path all of whose segments
after the root are non-ignored, so no file under an ignored directory below
the root is ever yielded; only the scan root itself may carry an ignored name
(its direct files are skipped yet its subtree is still traversed). -/
theorem claim_C3_amended (exts : List (List Char)) (t : FSTree)
    (d : List (List Char)) (f : List Char) (h : (d, f) ∈ walk_code_files exts [] t) :
    ∀ s ∈ d.drop 1, isIgnoredDir s = false := by
  rcases walk_code_files_shape exts [] t d f h with ⟨rest, hd, hrest⟩
  subst hd
  simpa using hrest

/-- Witness for claim C3's amended theorem on a concrete two-level tree. -/
theorem claim_C3_witness :
    (([chars "root", chars "sub"], chars "x.js") ∈
      walk_code_files [chars ".js"] []
        (FSTree.node (chars "root") [] [FSTree.node (chars "sub") [chars "x.js"] []])) ∧
    ∀ s ∈ ([chars "root", chars "sub"] : List (List Char)).drop 1, isIgnoredDir s = false :=
  ⟨by decide, claim_C3_amended [chars ".js"]
    (FSTree.node (chars "root") [] [FSTree.node (chars "sub") [chars "x.js"] []])
    [chars "root", chars "sub"] (chars "x.js") (by decide)⟩

/-- Claim C4, counterexample: in the one-file run c4Run (max_chars 400, one
character of content, a 600-character relative path) the single written
output file has 898 characters, exceeding max_chars by 498, far beyond the
planner's fixed estimation constants (index_est = 150 and the 100-character
safety margin); the excess grows with the path length, so no fixed margin
bounds it. -/
theorem claim_C4_counterexample :
    c4Run.outputs.map (fun o => (renderOutput o).length) = [898] ∧
    400 + index_est + 100 < 898 := by
  decide

/-- Claim C4, amended: for every input composition, every written output
file's total character length is at most max_chars plus twice the length of
its own index block (so the overshoot is bounded by per-output index
overhead, not by any fixed margin). -/
theorem claim_C4_amended (inputs : List StagedInput)
    (fm : List (List Char × List Char × List Char)) (fb : Bool) (mc : Nat) (pfx : List Char)
    (o : OutputFile) (ho : o ∈ (merge_text_files inputs fm fb mc pfx).outputs) :
    (renderOutput o).length ≤ mc + 2 * (renderIndex o.entries).length := by
  have hinv := write_buffer_inv mc
    ((sortStaged inputs).foldl (processFile mc pfx fm fb) initialMergeState) pfx false
    (foldl_inv mc pfx fm fb (sortStaged inputs) initialMergeState (initial_inv mc))
  exact hinv.1 o ho

/-- Witness for claim C4's amended theorem on the concrete run c4Run. -/
theorem claim_C4_witness :
    (c4Run.outputs.getD 0 { fname := [], entries := [] } ∈ c4Run.outputs) ∧
    (renderOutput (c4Run.outputs.getD 0 { fname := [], entries := [] })).length ≤
      400 + 2 * (renderIndex (c4Run.outputs.getD 0 { fname := [], entries := [] }).entries).length :=
  ⟨by decide, claim_C4_amended [{ key := chars "a", bytes := [(120 : Fin 256)] }]
    [(chars "a", chars "a", List.replicate 600 'p')] false 400 (chars "MergedFile")
    (c4Run.outputs.getD 0 { fname := [], entries := [] }) (by decide)⟩

/-- Claim C5: for a non-final chunk (the window end lies strictly inside the
content), if the file name has a recognized source-code extension the cut is
placed at the greatest position strictly after the chunk start at which one
of the six newline-prefixed declaration tokens occurs entirely inside the
candidate window; if no such position exists, or the name is not a code
extension, the cut is at the raw budget boundary. -/
theorem claim_C5 (orig content : List Char) (available off : Nat)
    (hwin : off + available < content.length) :
    (is_code_file orig = true →
      ((∀ j, ¬(off < j ∧ candAny content off (off + available) declTokens j)) →
        nextCut (is_code_file orig) content available off = off + available) ∧
      (∀ i, off < i → candAny content off (off + available) declTokens i →
        off < nextCut (is_code_file orig) content available off ∧
        candAny content off (off + available) declTokens
          (nextCut (is_code_file orig) content available off) ∧
        ∀ j, off < j → candAny content off (off + available) declTokens j →
          j ≤ nextCut (is_code_file orig) content available off)) ∧
    (is_code_file orig = false →
      nextCut (is_code_file orig) content available off = off + available) := by
  constructor
  · intro hic
    rw [hic]
    have hspec := rfindMax_spec content off (off + available) (le_of_lt hwin) declTokens
    constructor
    · intro hno
      simp only [nextCut, if_neg (Nat.not_le.2 hwin), if_true]
      rcases hspec with ⟨hm, _⟩ | ⟨iM, hm, hcM, _⟩
      · rw [hm]
        rw [if_neg (by omega : ¬ ((off : Int) < -1))]
      · rw [hm]
        have hle : iM ≤ off := by
          by_contra hgt
          exact hno iM ⟨Nat.lt_of_not_le hgt, hcM⟩
        rw [if_neg (by exact_mod_cast Nat.not_lt.2 hle)]
    · intro i hoff hcand
      rcases hspec with ⟨_, hnone⟩ | ⟨iM, hm, hcM, hmax⟩
      · exact absurd hcand (hnone i)
      · have hiM : off < iM := lt_of_lt_of_le hoff (hmax i hcand)
        have hcut : nextCut true content available off = iM := by
          simp only [nextCut, if_neg (Nat.not_le.2 hwin), if_true]
          rw [hm, if_pos (by exact_mod_cast hiM)]
          exact Int.toNat_natCast iM
        rw [hcut]
        exact ⟨hiM, hcM, fun j _ hcj => hmax j hcj⟩
  · intro hic
    rw [hic]
    simp only [nextCut, if_neg (Nat.not_le.2 hwin)]
    simp

/-- Witness for claim C5 at a concrete code file with a declaration token
inside the window. -/
theorem claim_C5_witness :
    (0 + 10 < (chars "x\ndef yz0123456789").length ∧
      is_code_file (chars "a.py") = true ∧
      0 < 1 ∧ candAny (chars "x\ndef yz0123456789") 0 (0 + 10) declTokens 1) ∧
    (0 < nextCut (is_code_file (chars "a.py")) (chars "x\ndef yz0123456789") 10 0 ∧
      candAny (chars "x\ndef yz0123456789") 0 (0 + 10) declTokens
        (nextCut (is_code_file (chars "a.py")) (chars "x\ndef yz0123456789") 10 0) ∧
      ∀ j, 0 < j → candAny (chars "x\ndef yz0123456789") 0 (0 + 10) declTokens j →
        j ≤ nextCut (is_code_file (chars "a.py")) (chars "x\ndef yz0123456789") 10 0) :=
  ⟨⟨by decide, by decide, by decide, by decide⟩,
    ((claim_C5 (chars "a.py") (chars "x\ndef yz0123456789") 10 0 (by decide)).1
      (by decide)).2 1 (by decide) (by decide)⟩

/-- Claim C6: the reader behaves exactly as described: it tries the text
encodings in succession until one succeeds, and if and only if all fail it
samples the first 1KB, skips the file on a null byte, and otherwise decodes
with the lossy latin-1 fallback.  The two sides differ textually only in the
all-encodings-fail branch (the code decodes just the sample there), which is
unreachable because latin-1 decoding is total, so the reader satisfies the
claimed description on every input; in particular a skip is a per-file
continue, never an abort. -/
theorem claim_C6 (bs : List (Fin 256)) : pyReadContent bs = readSpecC6 bs := by
  unfold pyReadContent readSpecC6
  rcases h : tryDecode encodings_to_try bs with _ | c
  · exact absurd h (tryDecode_encodings_ne_none bs)
  · rfl

/-- Claim C7, counterexample: the relative paths "a b.py" and "a_b.py" are
distinct but sanitize to the same unique key, so two distinct relative paths
can collide in staging. -/
theorem claim_C7_counterexample :
    chars "a b.py" ≠ chars "a_b.py" ∧
    sanitize_rel_path (chars "a b.py") = sanitize_rel_path (chars "a_b.py") := by
  decide

/-- Claim C7, amended: sanitization is injective on relative paths of at most
200 characters that contain no underscore and whose only characters from the
replaced class are non-adjacent slash separators (this covers the spec's
same-basename example, e.g. src/a/page.tsx versus src/b/page.tsx); outside
that class, distinct paths can collide. -/
theorem claim_C7_amended (p q : List Char) (hp : plainSegPath p) (hq : plainSegPath q)
    (hne : p ≠ q) : sanitize_rel_path p ≠ sanitize_rel_path q := by
  rw [sanitize_plain p hp, sanitize_plain q hq]
  intro heq
  exact hne (mapSlash_inj p q hp.2.1 hq.2.1 heq)

/-- Witness for claim C7's amended theorem on the spec's example paths. -/
theorem claim_C7_witness :
    (plainSegPath (chars "src/a/page.tsx") ∧ plainSegPath (chars "src/b/page.tsx") ∧
      chars "src/a/page.tsx" ≠ chars "src/b/page.tsx") ∧
    sanitize_rel_path (chars "src/a/page.tsx") ≠ sanitize_rel_path (chars "src/b/page.tsx") :=
  ⟨⟨by decide, by decide, by decide⟩,
    claim_C7_amended (chars "src/a/page.tsx") (chars "src/b/page.tsx")
      (by decide) (by decide) (by decide)⟩

/-- Claim C8, counterexample: a scan whose root directory is named
node_modules is visited by the traversal, and its file x.js passes the
claimed filter (not an ignored file, matching extension), yet nothing is
yielded, so the claimed iff fails for the files of an ignored-named root. -/
theorem claim_C8_counterexample :
    file_kept [chars ".js"] (chars "x.js") = true ∧
    walk_code_files [chars ".js"] []
      (FSTree.node (chars "node_modules") [chars "x.js"] []) = [] := by
  decide

/-- Claim C8, amended: for every visited directory, a pair (directory,
filename) with that directory's own path is yielded if and only if the
directory's lower-cased basename is not ignored (which can fail only for the
scan root, since deeper ignored directories are pruned and never visited),
the filename is one of the directory's files, its lower-cased name is not in
the ignored-files set, and it ends with a requested extension under plain
case-sensitive suffix comparison. -/
theorem claim_C8_amended (exts : List (List Char)) (path : List (List Char))
    (dn : List Char) (files : List (List Char)) (subdirs : List FSTree) (fn : List Char) :
    (path ++ [dn], fn) ∈ walk_code_files exts path (FSTree.node dn files subdirs) ↔
      (isIgnoredDir dn = false ∧ fn ∈ files ∧ file_kept exts fn = true) := by
  rw [walk_code_files]
  constructor
  · intro h
    rcases List.mem_append.1 h with h' | h'
    · by_cases hig : isIgnoredDir dn = true
      · rw [if_pos hig] at h'
        simp at h'
      · rw [if_neg hig] at h'
        rcases List.mem_map.1 h' with ⟨x, hx, hxe⟩
        have hxfn : x = fn := by
          injection hxe with h1 h2
        subst hxfn
        exact ⟨Bool.eq_false_iff.2 hig, (List.mem_filter.1 hx).1,
          (List.mem_filter.1 hx).2⟩
    · exfalso
      rcases walk_forest_shape exts (path ++ [dn]) subdirs _ _ h' with
        ⟨t', _, _, rest, hd, _⟩
      have := congrArg List.length hd
      simp at this
  · rintro ⟨hig, hmem, hkept⟩
    apply List.mem_append.2
    left
    rw [if_neg (by simp [hig])]
    exact List.mem_map.2 ⟨fn, List.mem_filter.2 ⟨hmem, hkept⟩, rfl⟩

/-- Claim C9: the merge planner is a deterministic function of the staged
directory contents, the map contents, and max_chars: two runs over the same
set of staged files (any listing order, keys distinct as directory entries
are) with the same map, flag, budget and filename stem produce identical output
sequences, because the planner sorts the listing before processing. -/
theorem claim_C9 (l₁ l₂ : List StagedInput)
    (fm : List (List Char × List Char × List Char)) (fb : Bool) (mc : Nat) (pfx : List Char)
    (hperm : l₁.Perm l₂) (hnd : (l₁.map StagedInput.key).Nodup) :
    merge_text_files l₁ fm fb mc pfx = merge_text_files l₂ fm fb mc pfx := by
  have hsort : sortStaged l₁ = sortStaged l₂ :=
    sorted_nodupkeys_unique _ _
      (((sortStaged_perm l₁).trans hperm).trans (sortStaged_perm l₂).symm)
      (sortStaged_sorted l₁) (sortStaged_sorted l₂)
      (((sortStaged_perm l₁).map StagedInput.key).nodup_iff.2 hnd)
  unfold merge_text_files
  rw [hsort]

/-- Witness for claim C9 on two permuted two-file listings. -/
theorem claim_C9_witness :
    (([{ key := chars "b", bytes := [] }, { key := chars "a", bytes := [] }] :
        List StagedInput).Perm
      [{ key := chars "a", bytes := [] }, { key := chars "b", bytes := [] }] ∧
      (([{ key := chars "b", bytes := [] }, { key := chars "a", bytes := [] }] :
        List StagedInput).map StagedInput.key).Nodup) ∧
    merge_text_files [{ key := chars "b", bytes := [] }, { key := chars "a", bytes := [] }]
        [] false 400 (chars "M") =
      merge_text_files [{ key := chars "a", bytes := [] }, { key := chars "b", bytes := [] }]
        [] false 400 (chars "M") :=
  ⟨⟨by decide, by decide⟩,
    claim_C9 [{ key := chars "b", bytes := [] }, { key := chars "a", bytes := [] }]
      [{ key := chars "a", bytes := [] }, { key := chars "b", bytes := [] }]
      [] false 400 (chars "M") (by decide) (by decide)⟩

/-- Claim C10: under the precondition that the per-chunk budget
available = max_chars - header_est - index_est is strictly positive, every
iteration of the chunk-carving loop strictly increases temp_offset (whichever
branch fires), and the loop reaches its fixpoint within content-many
iterations: the carving result is the same for every fuel of at least the
content length, which is the termination of the source's while loop. -/
theorem claim_C10 (orig : List Char) (mc : Nat) (h : 0 < avail orig mc)
    (content : List Char) :
    (∀ off, off < content.length →
      off < nextCut (is_code_file orig) content (avail orig mc) off) ∧
    (∀ f₁ f₂, content.length ≤ f₁ → content.length ≤ f₂ →
      pySplitFuel (is_code_file orig) content (avail orig mc) f₁ 0 =
        pySplitFuel (is_code_file orig) content (avail orig mc) f₂ 0) := by
  constructor
  · exact fun off hoff => nextCut_progress _ content _ off h hoff
  · exact fun f₁ f₂ h₁ h₂ =>
      pySplitFuel_stable _ content _ h f₁ f₂ 0 (by omega) (by omega)

/-- Witness for claim C10 at the default configuration (max_chars 75000). -/
theorem claim_C10_witness :
    (0 < avail (chars "a.py") 75000 ∧ 0 < (chars "hello").length) ∧
    (0 < nextCut (is_code_file (chars "a.py")) (chars "hello")
      (avail (chars "a.py") 75000) 0) ∧
    pySplitFuel (is_code_file (chars "a.py")) (chars "hello")
        (avail (chars "a.py") 75000) 7 0 =
      pySplitFuel (is_code_file (chars "a.py")) (chars "hello")
        (avail (chars "a.py") 75000) 9 0 :=
  ⟨⟨by decide, by decide⟩,
    (claim_C10 (chars "a.py") 75000 (by decide) (chars "hello")).1 0 (by decide),
    (claim_C10 (chars "a.py") 75000 (by decide) (chars "hello")).2 7 9
      (by decide) (by decide)⟩
